import Mathlib

/-!
Verification development for the CycleMAE model (`src/cyclemae.py`).

The PyTorch tensor programs are shallowly embedded: a tensor of shape
`[N, L, D]` becomes a function `Fin N → Fin L → Fin D → ℝ` (or a generic
value type when the operation is pure data movement).  Opaque external
collaborators (timm `Block`, `PatchEmbed`, the sin-cos positional tables,
the learned linear layers) are parameters of the embedding, as the spec
treats them as fixed shape-preserving contracts.  Random noise drawn by
`torch.rand` is threaded explicitly as a `ℚ`-valued argument.
-/

namespace CycleMAE

/-! ## torch.argsort

`torch.argsort(key, dim)` returns the indices that would sort `key`
ascending.  We model it per row: `rankOf key i` counts the elements that
come strictly before `i` when sorting by `key` ascending, breaking ties by
the original index (a stable sort; ties have measure zero for continuous
noise and stability is what the spec demands of implementations).
`argsort key v` is then the index of rank `v`.
-/

def rankOf {L : ℕ} {β : Type} [LinearOrder β] (key : Fin L → β) (i : Fin L) : ℕ :=
  (Finset.univ.filter fun j => key j < key i ∨ (key j = key i ∧ j < i)).card

theorem rankOf_lt {L : ℕ} {β : Type} [LinearOrder β] (key : Fin L → β) (i : Fin L) :
    rankOf key i < L := by
  unfold rankOf
  have hsub : (Finset.univ.filter fun j => key j < key i ∨ (key j = key i ∧ j < i)) ⊆
      Finset.univ.erase i := by
    intro j hj
    rcases Finset.mem_filter.mp hj with ⟨-, hj⟩
    refine Finset.mem_erase.mpr ⟨?_, Finset.mem_univ j⟩
    rintro rfl
    rcases hj with h | ⟨-, h⟩ <;> exact absurd h (lt_irrefl _)
  have hcard := Finset.card_le_card hsub
  have herase : (Finset.univ.erase i).card = L - 1 := by
    rw [Finset.card_erase_of_mem (Finset.mem_univ i)]
    simp
  have hL : 0 < L := i.pos
  omega

def rankFin {L : ℕ} {β : Type} [LinearOrder β] (key : Fin L → β) (i : Fin L) : Fin L :=
  ⟨rankOf key i, rankOf_lt key i⟩

theorem rankFin_injective {L : ℕ} {β : Type} [LinearOrder β] (key : Fin L → β) :
    Function.Injective (rankFin key) := by
  intro a b hab
  by_contra hne
  -- the strict lexicographic order (key, index) is a linear order on indices
  have lex_total : ∀ x y : Fin L, x ≠ y →
      (key x < key y ∨ (key x = key y ∧ x < y)) ∨
      (key y < key x ∨ (key y = key x ∧ y < x)) := by
    intro x y hxy
    rcases lt_trichotomy (key x) (key y) with h | h | h
    · exact Or.inl (Or.inl h)
    · rcases lt_or_gt_of_ne (fun h' => hxy (by exact h')) with h' | h'
      · exact Or.inl (Or.inr ⟨h, h'⟩)
      · exact Or.inr (Or.inr ⟨h.symm, h'⟩)
    · exact Or.inr (Or.inl h)
  -- if x comes strictly before y lexicographically then rankOf x < rankOf y
  have rank_mono : ∀ x y : Fin L,
      (key x < key y ∨ (key x = key y ∧ x < y)) → rankOf key x < rankOf key y := by
    intro x y hxy
    have hsub1 : (Finset.univ.filter fun j => key j < key x ∨ (key j = key x ∧ j < x)) ⊆
        Finset.univ.filter fun j => key j < key y ∨ (key j = key y ∧ j < y) := by
      intro j hj
      rcases Finset.mem_filter.mp hj with ⟨-, hj⟩
      refine Finset.mem_filter.mpr ⟨Finset.mem_univ j, ?_⟩
      rcases hj with hj | ⟨hj1, hj2⟩
      · rcases hxy with h | ⟨h1, -⟩
        · exact Or.inl (hj.trans h)
        · exact Or.inl (h1 ▸ hj)
      · rcases hxy with h | ⟨h1, h2⟩
        · exact Or.inl (hj1 ▸ h)
        · exact Or.inr ⟨hj1.trans h1, hj2.trans h2⟩
    have hxmem : x ∈ Finset.univ.filter fun j => key j < key y ∨ (key j = key y ∧ j < y) :=
      Finset.mem_filter.mpr ⟨Finset.mem_univ x, hxy⟩
    have hxnot : x ∉ Finset.univ.filter fun j => key j < key x ∨ (key j = key x ∧ j < x) := by
      intro hx
      rcases Finset.mem_filter.mp hx with ⟨-, hx⟩
      rcases hx with h | ⟨-, h⟩ <;> exact absurd h (lt_irrefl _)
    exact Finset.card_lt_card ((Finset.ssubset_iff_of_subset hsub1).mpr ⟨x, hxmem, hxnot⟩)
  have hab' : rankOf key a = rankOf key b := congrArg Fin.val hab
  rcases lex_total a b hne with h | h
  · exact absurd hab' (Nat.ne_of_lt (rank_mono a b h))
  · exact absurd hab'.symm (Nat.ne_of_lt (rank_mono b a h))

theorem rankFin_bijective {L : ℕ} {β : Type} [LinearOrder β] (key : Fin L → β) :
    Function.Bijective (rankFin key) :=
  Finite.injective_iff_bijective.mp (rankFin_injective key)

def argsort {L : ℕ} {β : Type} [LinearOrder β] (key : Fin L → β) : Fin L → Fin L :=
  Fintype.bijInv (rankFin_bijective key)

theorem rankFin_argsort {L : ℕ} {β : Type} [LinearOrder β] (key : Fin L → β) (v : Fin L) :
    rankFin key (argsort key v) = v :=
  Fintype.rightInverse_bijInv (rankFin_bijective key) v

theorem argsort_rankFin {L : ℕ} {β : Type} [LinearOrder β] (key : Fin L → β) (i : Fin L) :
    argsort key (rankFin key i) = i :=
  Fintype.leftInverse_bijInv (rankFin_bijective key) i

theorem argsort_bijective {L : ℕ} {β : Type} [LinearOrder β] (key : Fin L → β) :
    Function.Bijective (argsort key) := by
  constructor
  · intro a b hab
    have := congrArg (rankFin key) hab
    rwa [rankFin_argsort, rankFin_argsort] at this
  · intro v
    exact ⟨rankFin key v, argsort_rankFin key v⟩

/-- Helper: the number of indices of `Fin L` with value `< K`. -/
theorem card_filter_val_lt (L K : ℕ) :
    ((Finset.univ : Finset (Fin L)).filter fun l => l.val < K).card = min K L := by
  rw [← Finset.card_image_of_injective
      ((Finset.univ : Finset (Fin L)).filter fun l => l.val < K) Fin.val_injective]
  have himg : Finset.image Fin.val ((Finset.univ : Finset (Fin L)).filter fun l => l.val < K) =
      Finset.range (min K L) := by
    ext n
    simp only [Finset.mem_image, Finset.mem_filter, Finset.mem_univ, true_and,
      Finset.mem_range, lt_min_iff]
    constructor
    · rintro ⟨l, hl, rfl⟩
      exact ⟨hl, l.isLt⟩
    · rintro ⟨h1, h2⟩
      exact ⟨⟨n, h2⟩, h1, rfl⟩
  rw [himg, Finset.card_range]

/-- For a bijective key `s : Fin L → Fin L`, the stable rank of `i` is just `s i`
(no ties are possible, and exactly `(s i).val` values sort before `s i`). -/
theorem rankFin_of_bijective {L : ℕ} (s : Fin L → Fin L) (hs : Function.Bijective s) :
    rankFin s = s := by
  funext i
  apply Fin.ext
  show rankOf s i = (s i).val
  unfold rankOf
  have hmin : ((s i).val) = min ((s i).val) L := (Nat.min_eq_left (Nat.le_of_lt (s i).isLt)).symm
  rw [hmin, ← card_filter_val_lt L ((s i).val)]
  apply Finset.card_bij (fun j _ => s j)
  · intro j hj
    simp only [Finset.mem_filter, Finset.mem_univ, true_and] at hj ⊢
    rcases hj with h | ⟨h1, h2⟩
    · exact h
    · obtain rfl := hs.injective h1
      exact absurd h2 (lt_irrefl _)
  · intro a ha b hb hab
    exact hs.injective hab
  · intro y hy
    simp only [Finset.mem_filter, Finset.mem_univ, true_and] at hy
    simp only [Finset.mem_filter, Finset.mem_univ, true_and]
    rcases hs.surjective y with ⟨j, rfl⟩
    exact ⟨j, Or.inl hy, rfl⟩

/-! ## Encoder.random_masking (src/cyclemae.py lines 113-138)

`len_keep = int(L * (1 - mask_ratio))` (truncation: for `mask_ratio ≤ 1`
the product is nonnegative, so `int` agrees with the floor; for the invalid
inputs `mask_ratio > 1` we clamp at 0, mirroring that a negative Python
length is out of the claims' scope).

The per-row random noise of `torch.rand(N, L)` is an explicit argument
`noise : Fin N → Fin L → ℚ`.
-/

def lenKeep (L : ℕ) (r : ℚ) : ℕ := ((⌊(L : ℚ) * (1 - r)⌋ : ℤ)).toNat

/-- `ids_shuffle = torch.argsort(noise, dim=1)` (line 125). -/
def idsShuffle {N L : ℕ} (noise : Fin N → Fin L → ℚ) (n : Fin N) : Fin L → Fin L :=
  argsort (noise n)

/-- `ids_restore = torch.argsort(ids_shuffle, dim=1)` (line 126). -/
def idsRestore {N L : ℕ} (noise : Fin N → Fin L → ℚ) (n : Fin N) : Fin L → Fin L :=
  argsort (idsShuffle noise n)

/-- The kept length actually used for slicing: Python `[:len_keep]` clamps
at the row length `L`. -/
def keptLen (L : ℕ) (r : ℚ) : ℕ := min (lenKeep L r) L

/-- `ids_keep = ids_shuffle[:, :len_keep]` (line 129). -/
def idsKeep {N L : ℕ} (noise : Fin N → Fin L → ℚ) (r : ℚ) (n : Fin N)
    (v : Fin (keptLen L r)) : Fin L :=
  idsShuffle noise n ⟨v.val, lt_of_lt_of_le v.isLt (min_le_right _ _)⟩

/-- `x_masked = torch.gather(x, dim=1, index=ids_keep...)` (line 130). -/
def xMasked {N L : ℕ} {α : Type} (x : Fin N → Fin L → α) (noise : Fin N → Fin L → ℚ)
    (r : ℚ) (n : Fin N) (v : Fin (keptLen L r)) : α :=
  x n (idsKeep noise r n v)

/-- Lines 133-136: `mask = ones(N, L); mask[:, :len_keep] = 0;
mask = gather(mask, dim=1, index=ids_restore)`.  The value type is generic
(`ℝ` in the loss computation, `ℚ` for decidable witnesses). -/
def binMask (β : Type) [Zero β] [One β] {N L : ℕ} (noise : Fin N → Fin L → ℚ) (r : ℚ)
    (n : Fin N) (l : Fin L) : β :=
  if (idsRestore noise n l).val < lenKeep L r then 0 else 1

/-- `Encoder.random_masking` bundled as in the source: returns
`(x_masked, mask, ids_restore)`. -/
def randomMasking (β : Type) [Zero β] [One β] {N L : ℕ} {α : Type}
    (x : Fin N → Fin L → α) (noise : Fin N → Fin L → ℚ) (r : ℚ) :
    (Fin N → Fin (keptLen L r) → α) × (Fin N → Fin L → β) × (Fin N → Fin L → Fin L) :=
  (fun n v => xMasked x noise r n v, fun n l => binMask β noise r n l,
    fun n l => idsRestore noise n l)

/-- Restoration indices invert the shuffle: `ids_restore[ids_shuffle[i]] = i`. -/
theorem idsRestore_idsShuffle {N L : ℕ} (noise : Fin N → Fin L → ℚ) (n : Fin N) (i : Fin L) :
    idsRestore noise n (idsShuffle noise n i) = i := by
  unfold idsRestore
  have hbij := argsort_bijective (noise n)
  have hrank : rankFin (idsShuffle noise n) = idsShuffle noise n :=
    rankFin_of_bijective _ hbij
  have := argsort_rankFin (idsShuffle noise n) i
  rwa [hrank] at this

theorem idsShuffle_idsRestore {N L : ℕ} (noise : Fin N → Fin L → ℚ) (n : Fin N) (l : Fin L) :
    idsShuffle noise n (idsRestore noise n l) = l := by
  have hbij := argsort_bijective (noise n)
  rcases hbij.surjective l with ⟨i, rfl⟩
  have h1 : argsort (noise n) i = idsShuffle noise n i := rfl
  rw [h1, idsRestore_idsShuffle]

theorem idsRestore_bijective {N L : ℕ} (noise : Fin N → Fin L → ℚ) (n : Fin N) :
    Function.Bijective (idsRestore noise n) :=
  argsort_bijective _

theorem idsShuffle_bijective {N L : ℕ} (noise : Fin N → Fin L → ℚ) (n : Fin N) :
    Function.Bijective (idsShuffle noise n) :=
  argsort_bijective _

theorem binMask_zero_or_one (β : Type) [Zero β] [One β] {N L : ℕ}
    (noise : Fin N → Fin L → ℚ) (r : ℚ) (n : Fin N) (l : Fin L) :
    binMask β noise r n l = 0 ∨ binMask β noise r n l = 1 := by
  unfold binMask
  split
  · exact Or.inl rfl
  · exact Or.inr rfl

theorem lenKeep_le (L : ℕ) {r : ℚ} (h0 : 0 ≤ r) : lenKeep L r ≤ L := by
  unfold lenKeep
  have h1 : (L : ℚ) * (1 - r) ≤ (L : ℚ) := by
    have hL : (0 : ℚ) ≤ (L : ℚ) := Nat.cast_nonneg L
    nlinarith
  have h2 : (⌊(L : ℚ) * (1 - r)⌋ : ℤ) ≤ ⌊(L : ℚ)⌋ := Int.floor_le_floor h1
  have h3 : (⌊(L : ℚ)⌋ : ℤ) = (L : ℤ) := Int.floor_natCast L
  omega

theorem lenKeep_zero (L : ℕ) : lenKeep L 0 = L := by
  unfold lenKeep
  norm_num

/-- The per-sample number of ones in the binary mask is exactly
`L - len_keep` where `len_keep = int(L * (1 - mask_ratio))`. -/
theorem sum_binMask {N L : ℕ} (noise : Fin N → Fin L → ℚ) {r : ℚ} (h0 : 0 ≤ r) (n : Fin N) :
    ∑ l, binMask ℚ noise r n l = ((L - lenKeep L r : ℕ) : ℚ) := by
  have hcomp : ∑ l, binMask ℚ noise r n l =
      ∑ v : Fin L, (if v.val < lenKeep L r then (0 : ℚ) else 1) := by
    exact (idsRestore_bijective noise n).sum_comp fun v => if v.val < lenKeep L r then (0:ℚ) else 1
  rw [hcomp, Finset.sum_ite, Finset.sum_const_zero, zero_add, Finset.sum_const,
    nsmul_eq_mul, mul_one]
  have hsplit := Finset.filter_card_add_filter_neg_card_eq_card
    (s := (Finset.univ : Finset (Fin L))) (p := fun v => v.val < lenKeep L r)
  have hlt := card_filter_val_lt L (lenKeep L r)
  have hmin : min (lenKeep L r) L = lenKeep L r := Nat.min_eq_left (lenKeep_le L h0)
  have huniv : (Finset.univ : Finset (Fin L)).card = L := Finset.card_univ.trans (Fintype.card_fin L)
  have : (Finset.univ.filter fun v : Fin L => ¬ v.val < lenKeep L r).card = L - lenKeep L r := by
    omega
  rw [this]

/-- C2: for every input sequence and every `mask_ratio ∈ [0,1)`,
`random_masking` produces per-sample permutations with
`ids_restore[ids_shuffle[i]] == i` for all `i`, a binary mask whose entries
are exactly 0 or 1 and whose per-sample sum is exactly
`L - floor(L*(1-mask_ratio))`, and for `mask_ratio = 0` it yields
`len_keep == L` and an all-zero mask. -/
theorem c2_masking_invariants {N L : ℕ} (noise : Fin N → Fin L → ℚ) (r : ℚ)
    (h0 : 0 ≤ r) (h1 : r < 1) :
    (∀ (n : Fin N) (i : Fin L), idsRestore noise n (idsShuffle noise n i) = i) ∧
    (∀ (n : Fin N) (l : Fin L), binMask ℚ noise r n l = 0 ∨ binMask ℚ noise r n l = 1) ∧
    (∀ n : Fin N, ∑ l, binMask ℚ noise r n l = ((L - lenKeep L r : ℕ) : ℚ)) ∧
    (r = 0 → lenKeep L r = L ∧ ∀ (n : Fin N) (l : Fin L), binMask ℚ noise r n l = 0) := by
  refine ⟨idsRestore_idsShuffle noise, binMask_zero_or_one ℚ noise r, sum_binMask noise h0, ?_⟩
  rintro rfl
  refine ⟨lenKeep_zero L, fun n l => ?_⟩
  unfold binMask
  rw [if_pos]
  rw [lenKeep_zero L]
  exact (idsRestore noise n l).isLt

/-- Concrete noise row used by witnesses: values 1/2, 1/5, 9/10, 2/5, so the
ascending argsort is `[1, 3, 0, 2]`. -/
def noiseW : Fin 1 → Fin 4 → ℚ := fun _ l =>
  match l with
  | 0 => 1/2
  | 1 => 1/5
  | 2 => 9/10
  | 3 => 2/5

theorem c2_masking_invariants_witness :
    (idsRestore noiseW 0 (idsShuffle noiseW 0 2) = 2) ∧
    (binMask ℚ noiseW (3/4) 0 1 = 0 ∨ binMask ℚ noiseW (3/4) 0 1 = 1) ∧
    (∑ l, binMask ℚ noiseW (3/4) 0 l = ((4 - lenKeep 4 (3/4) : ℕ) : ℚ)) :=
  ⟨(c2_masking_invariants noiseW (3/4) (by norm_num) (by norm_num)).1 0 2,
   (c2_masking_invariants noiseW (3/4) (by norm_num) (by norm_num)).2.1 0 1,
   (c2_masking_invariants noiseW (3/4) (by norm_num) (by norm_num)).2.2.1 0⟩

/-! ## Decoder.forward token restoration (src/cyclemae.py lines 47-55)

Lines 52-54:
`mask_tokens = mask_token.repeat(N, ids_restore.shape[1] + 1 - x.shape[1], 1)`
`x_ = torch.cat([x[:, 1:, :], mask_tokens], dim=1)`
`x_ = torch.gather(x_, dim=1, index=ids_restore...)`
With `x : [N, K+1, D]` (cls token at slot 0) and `ids_restore : [N, L]`,
entry `j < K` of the concatenation is the visible token `x[:, j+1]` and
entries `K ≤ j < L` are the broadcast placeholder, so the gathered value at
patch position `l` is `x[:, ids_restore[l]+1]` when `ids_restore[l] < K`
and the placeholder otherwise. -/
def decoderUnshuffle {W : Type} {N L K : ℕ} (x : Fin N → Fin (K+1) → W)
    (rest : Fin N → Fin L → Fin L) (mTok : W) (n : Fin N) (l : Fin L) : W :=
  if hv : (rest n l).val < K then x n ⟨(rest n l).val + 1, Nat.succ_lt_succ hv⟩ else mTok

/-- C1: with `ids_restore` produced by `random_masking` (kept tokens = the
first `len_keep` shuffled positions), the gather step of `Decoder.forward`
places the visible token at kept slot `v` back at its original patch index
`ids_shuffle[v]`, places the placeholder at every removed position (the
positions with mask value 1), and the restored positions are a bijective
relabelling — no position receives a stale or duplicated token. -/
theorem c1_decoder_restoration {W : Type} {N L : ℕ} (noise : Fin N → Fin L → ℚ) (r : ℚ)
    (latent : Fin N → Fin (keptLen L r + 1) → W) (mTok : W) :
    (∀ (n : Fin N) (v : Fin L),
      decoderUnshuffle latent (fun n' l => idsRestore noise n' l) mTok n (idsShuffle noise n v) =
        if hv : v.val < keptLen L r then latent n ⟨v.val + 1, Nat.succ_lt_succ hv⟩ else mTok) ∧
    (∀ (n : Fin N) (l : Fin L), binMask ℚ noise r n l = 1 →
      decoderUnshuffle latent (fun n' l => idsRestore noise n' l) mTok n l = mTok) ∧
    (∀ n : Fin N, Function.Bijective (idsShuffle noise n)) := by
  refine ⟨fun n v => ?_, fun n l hm => ?_, idsShuffle_bijective noise⟩
  · unfold decoderUnshuffle
    simp only [idsRestore_idsShuffle]
  · have hge : ¬ (idsRestore noise n l).val < lenKeep L r := by
      intro hc
      unfold binMask at hm
      rw [if_pos hc] at hm
      exact zero_ne_one hm
    have hge' : ¬ (idsRestore noise n l).val < keptLen L r := fun hc =>
      hge (lt_of_lt_of_le hc (min_le_left _ _))
    unfold decoderUnshuffle
    rw [dif_neg hge']

/-- Concrete latent used by the C1 witness; the token at slot `t` carries the
marker value `10*t + 7`. -/
def latentW : Fin 1 → Fin (keptLen 4 1 + 1) → ℕ := fun _ t => 10 * t.val + 7

theorem lenKeep_four_one : lenKeep 4 1 = 0 := by
  norm_num [lenKeep]

theorem binMask_noiseW_one : binMask ℚ noiseW 1 0 0 = 1 := by
  unfold binMask
  rw [lenKeep_four_one]
  simp

theorem c1_decoder_restoration_witness :
    binMask ℚ noiseW 1 0 0 = 1 ∧
    decoderUnshuffle latentW (fun n' l => idsRestore noiseW n' l) 99 0 0 = 99 :=
  ⟨binMask_noiseW_one,
   (c1_decoder_restoration noiseW 1 latentW 99).2.1 0 0 binMask_noiseW_one⟩

/-! ## CycleMAE.patchify / CycleMAE.unpatchify (src/cyclemae.py lines 263-289)

`patchify` reshapes `[N, 3, h*p, w*p]` to `[N, 3, h, p, w, p]`, permutes with
`einsum('nchpwq->nhwpqc')`, and flattens to `[N, h*w, p*p*3]` (with `h = w`);
so patch `l = hi*h + wi` and in-patch offset `k = (pi*p + qi)*3 + c`
correspond to image pixel `(c, hi*p + pi, wi*p + qi)`.  `unpatchify` is the
reverse composition (lines 277-289). -/

theorem mulAdd_lt {a m b q : ℕ} (ha : a < m) (hb : b < q) : a * q + b < m * q := by
  calc a * q + b < a * q + q := Nat.add_lt_add_left hb _
  _ = (a + 1) * q := by ring
  _ ≤ m * q := Nat.mul_le_mul_right q (Nat.succ_le_of_lt ha)

theorem mulAdd_div {a q b : ℕ} (hq : 0 < q) (hb : b < q) : (a * q + b) / q = a := by
  rw [Nat.mul_comm a q, Nat.mul_add_div hq, Nat.div_eq_of_lt hb, Nat.add_zero]

theorem mulAdd_mod {a q b : ℕ} (hb : b < q) : (a * q + b) % q = b := by
  rw [Nat.mul_comm a q, Nat.mul_add_mod, Nat.mod_eq_of_lt hb]

theorem fin_h_pos {h p : ℕ} (l : Fin (h*p)) : 0 < h := by
  rcases Nat.eq_zero_or_pos h with rfl | hh
  · exact absurd l.isLt (by simp)
  · exact hh

theorem fin_p_pos {h p : ℕ} (l : Fin (h*p)) : 0 < p := by
  rcases Nat.eq_zero_or_pos p with rfl | hp
  · exact absurd l.isLt (by simp)
  · exact hp

/-- The channel of in-patch offset `k = (pi*p + qi)*3 + c`. -/
def patchChan {p : ℕ} (k : Fin (p*p*3)) : Fin 3 :=
  ⟨k.val % 3, Nat.mod_lt _ (by norm_num)⟩

/-- The image row of patch `l = hi*h + wi`, offset `k`: `hi*p + pi`. -/
def patchRowCoord {h p : ℕ} (l : Fin (h*h)) (k : Fin (p*p*3)) : Fin (h*p) :=
  ⟨l.val / h * p + k.val / 3 / p,
    mulAdd_lt ((Nat.div_lt_iff_lt_mul (fin_h_pos (p := h) ⟨l.val, l.isLt⟩)).mpr l.isLt)
      ((Nat.div_lt_iff_lt_mul (by
          rcases Nat.eq_zero_or_pos p with rfl | hp
          · exact absurd k.isLt (by simp)
          · exact hp)).mpr
        ((Nat.div_lt_iff_lt_mul (by norm_num)).mpr k.isLt))⟩

/-- The image column of patch `l = hi*h + wi`, offset `k`: `wi*p + qi`. -/
def patchColCoord {h p : ℕ} (l : Fin (h*h)) (k : Fin (p*p*3)) : Fin (h*p) :=
  ⟨l.val % h * p + k.val / 3 % p,
    mulAdd_lt (Nat.mod_lt _ (fin_h_pos (p := h) ⟨l.val, l.isLt⟩))
      (Nat.mod_lt _ (by
        rcases Nat.eq_zero_or_pos p with rfl | hp
        · exact absurd k.isLt (by simp)
        · exact hp))⟩

/-- `CycleMAE.patchify`: reshape + `einsum('nchpwq->nhwpqc')` + flatten. -/
def patchify {α : Type} {m h p : ℕ} (imgs : Fin m → Fin 3 → Fin (h*p) → Fin (h*p) → α)
    (n : Fin m) (l : Fin (h*h)) (k : Fin (p*p*3)) : α :=
  imgs n (patchChan k) (patchRowCoord l k) (patchColCoord l k)

/-- The patch-grid index of image pixel `(u, v)`: `(u/p)*h + v/p`. -/
def gridOf {h p : ℕ} (u v : Fin (h*p)) : Fin (h*h) :=
  ⟨u.val / p * h + v.val / p,
    mulAdd_lt ((Nat.div_lt_iff_lt_mul (fin_p_pos u)).mpr u.isLt)
      ((Nat.div_lt_iff_lt_mul (fin_p_pos u)).mpr v.isLt)⟩

/-- The in-patch offset of image pixel `(u, v)` at channel `c`:
`((u%p)*p + v%p)*3 + c`. -/
def offsetOf {h p : ℕ} (u v : Fin (h*p)) (c : Fin 3) : Fin (p*p*3) :=
  ⟨(u.val % p * p + v.val % p) * 3 + c.val,
    mulAdd_lt (mulAdd_lt (Nat.mod_lt _ (fin_p_pos u)) (Nat.mod_lt _ (fin_p_pos u))) c.isLt⟩

/-- `CycleMAE.unpatchify`: the reverse reshape + `einsum('nhwpqc->nchpwq')`. -/
def unpatchify {α : Type} {m h p : ℕ} (x : Fin m → Fin (h*h) → Fin (p*p*3) → α)
    (n : Fin m) (c : Fin 3) (u v : Fin (h*p)) : α :=
  x n (gridOf u v) (offsetOf u v c)

/-- The code recovers `h` in `unpatchify` as `int(x.shape[1] ** .5)` and
asserts `h * w == x.shape[1]`; for `L = h*h` that recovery is exact. -/
theorem unpatchify_sqrt (h : ℕ) : Nat.sqrt (h * h) = h := by
  rw [← pow_two]
  exact Nat.sqrt_eq' h

/-- Patch-grid index `hi*h + wi` of the patch at grid row `hi`, column `wi`. -/
def patchIndex {h : ℕ} (hi wi : Fin h) : Fin (h*h) :=
  ⟨hi.val * h + wi.val, mulAdd_lt hi.isLt wi.isLt⟩

/-- In-patch offset `(pi*p + qi)*3 + c`: row-major over (height, width),
channel-last. -/
def pixelIndex {p : ℕ} (pi qi : Fin p) (c : Fin 3) : Fin (p*p*3) :=
  ⟨(pi.val * p + qi.val) * 3 + c.val, mulAdd_lt (mulAdd_lt pi.isLt qi.isLt) c.isLt⟩

/-- Image coordinate `hi*p + pi` of pixel `pi` inside patch-row `hi`. -/
def pixelCoord {h p : ℕ} (hi : Fin h) (pi : Fin p) : Fin (h*p) :=
  ⟨hi.val * p + pi.val, mulAdd_lt hi.isLt pi.isLt⟩

/-- C5: for every valid image tensor (square, size divisible by the patch
size, i.e. sides `h*p`), `patchify` groups each patch's pixels in row-major
(height-then-width) order with channels last, and
`unpatchify(patchify(x)) == x` exactly. -/
theorem patchChan_pixelIndex {p : ℕ} (pi qi : Fin p) (c : Fin 3) :
    patchChan (pixelIndex pi qi c) = c :=
  Fin.ext (mulAdd_mod c.isLt)

theorem patchRowCoord_pixelIndex {h p : ℕ} (hi wi : Fin h) (pi qi : Fin p) (c : Fin 3) :
    patchRowCoord (patchIndex hi wi) (pixelIndex pi qi c) = pixelCoord hi pi := by
  apply Fin.ext
  show (hi.val * h + wi.val) / h * p + ((pi.val * p + qi.val) * 3 + c.val) / 3 / p =
    hi.val * p + pi.val
  rw [mulAdd_div hi.pos wi.isLt, mulAdd_div (by norm_num) c.isLt, mulAdd_div pi.pos qi.isLt]

theorem patchColCoord_pixelIndex {h p : ℕ} (hi wi : Fin h) (pi qi : Fin p) (c : Fin 3) :
    patchColCoord (patchIndex hi wi) (pixelIndex pi qi c) = pixelCoord wi qi := by
  apply Fin.ext
  show (hi.val * h + wi.val) % h * p + ((pi.val * p + qi.val) * 3 + c.val) / 3 % p =
    wi.val * p + qi.val
  rw [mulAdd_mod wi.isLt, mulAdd_div (by norm_num) c.isLt, mulAdd_mod qi.isLt]

theorem patchChan_offsetOf {h p : ℕ} (u v : Fin (h*p)) (c : Fin 3) :
    patchChan (offsetOf u v c) = c :=
  Fin.ext (mulAdd_mod c.isLt)

theorem patchRowCoord_grid_offset {h p : ℕ} (u v : Fin (h*p)) (c : Fin 3) :
    patchRowCoord (gridOf u v) (offsetOf u v c) = u := by
  apply Fin.ext
  have hp : 0 < p := fin_p_pos u
  have hh : 0 < h := fin_h_pos u
  show (u.val / p * h + v.val / p) / h * p + ((u.val % p * p + v.val % p) * 3 + c.val) / 3 / p =
    u.val
  rw [mulAdd_div hh ((Nat.div_lt_iff_lt_mul hp).mpr v.isLt),
    mulAdd_div (by norm_num) c.isLt, mulAdd_div hp (Nat.mod_lt _ hp),
    Nat.mul_comm (u.val / p) p]
  exact Nat.div_add_mod u.val p

theorem patchColCoord_grid_offset {h p : ℕ} (u v : Fin (h*p)) (c : Fin 3) :
    patchColCoord (gridOf u v) (offsetOf u v c) = v := by
  apply Fin.ext
  have hp : 0 < p := fin_p_pos u
  show (u.val / p * h + v.val / p) % h * p + ((u.val % p * p + v.val % p) * 3 + c.val) / 3 % p =
    v.val
  rw [mulAdd_mod ((Nat.div_lt_iff_lt_mul hp).mpr v.isLt),
    mulAdd_div (by norm_num) c.isLt, mulAdd_mod (Nat.mod_lt _ hp),
    Nat.mul_comm (v.val / p) p]
  exact Nat.div_add_mod v.val p

/-- C5: for every valid image tensor (square, size divisible by the patch
size, i.e. sides `h*p`), `patchify` groups each patch's pixels in row-major
(height-then-width) order with channels last, and
`unpatchify(patchify(x)) == x` exactly. -/
theorem c5_patchify_roundtrip {α : Type} {m h p : ℕ}
    (imgs : Fin m → Fin 3 → Fin (h*p) → Fin (h*p) → α) :
    (∀ (n : Fin m) (hi wi : Fin h) (pi qi : Fin p) (c : Fin 3),
      patchify imgs n (patchIndex hi wi) (pixelIndex pi qi c) =
        imgs n c (pixelCoord hi pi) (pixelCoord wi qi)) ∧
    (∀ (n : Fin m) (c : Fin 3) (u v : Fin (h*p)),
      unpatchify (patchify imgs) n c u v = imgs n c u v) := by
  constructor
  · intro n hi wi pi qi c
    unfold patchify
    rw [patchChan_pixelIndex, patchRowCoord_pixelIndex, patchColCoord_pixelIndex]
  · intro n c u v
    unfold unpatchify patchify
    rw [patchChan_offsetOf, patchRowCoord_grid_offset, patchColCoord_grid_offset]

/-! ## Batch slicing by domain group

`CycleMAE.forward` hard-codes 3 domain groups and `bz = int(N/3)`
(line 346); the value-level model below works with batches of `N = 3*bz`
rows (the shape model further down covers `N % 3 ≠ 0`).  Row `j*bz + b` is
row `b` of domain group `j`. -/

def sliceRow {bz : ℕ} (j : Fin 3) (b : Fin bz) : Fin (3*bz) :=
  ⟨j.val * bz + b.val, mulAdd_lt j.isLt b.isLt⟩

/-- `f[j*bz:(j+1)*bz]` — the `j`-th domain-group slice of a batch tensor. -/
def rowSlice {bz : ℕ} {α : Type} (f : Fin (3*bz) → α) (j : Fin 3) : Fin bz → α :=
  fun b => f (sliceRow j b)

theorem bz_pos_of_mem {bz : ℕ} (n : Fin (3*bz)) : 0 < bz := by
  rcases Nat.eq_zero_or_pos bz with rfl | hbz
  · exact absurd n.isLt (by simp)
  · exact hbz

def groupOf {bz : ℕ} (n : Fin (3*bz)) : Fin 3 :=
  ⟨n.val / bz, (Nat.div_lt_iff_lt_mul (bz_pos_of_mem n)).mpr n.isLt⟩

def memberOf {bz : ℕ} (n : Fin (3*bz)) : Fin bz :=
  ⟨n.val % bz, Nat.mod_lt _ (bz_pos_of_mem n)⟩

/-- `torch.cat` of three `[bz, ...]` blocks along the batch dimension. -/
def cat3 {bz : ℕ} {α : Type} (f : Fin 3 → Fin bz → α) (n : Fin (3*bz)) : α :=
  f (groupOf n) (memberOf n)

theorem sliceRow_group_member {bz : ℕ} (n : Fin (3*bz)) :
    sliceRow (groupOf n) (memberOf n) = n := by
  apply Fin.ext
  show n.val / bz * bz + n.val % bz = n.val
  rw [Nat.mul_comm (n.val / bz) bz]
  exact Nat.div_add_mod n.val bz

theorem groupOf_sliceRow {bz : ℕ} (j : Fin 3) (b : Fin bz) : groupOf (sliceRow j b) = j :=
  Fin.ext (mulAdd_div b.pos b.isLt)

theorem memberOf_sliceRow {bz : ℕ} (j : Fin 3) (b : Fin bz) : memberOf (sliceRow j b) = b :=
  Fin.ext (mulAdd_mod b.isLt)

theorem cat3_sliceRow {bz : ℕ} {α : Type} (f : Fin 3 → Fin bz → α) (j : Fin 3) (b : Fin bz) :
    cat3 f (sliceRow j b) = f j b := by
  unfold cat3
  rw [groupOf_sliceRow, memberOf_sliceRow]

/-- Summing a batch tensor row-wise equals summing its three domain-group
slices. -/
theorem sum_groups {bz : ℕ} (f : Fin (3*bz) → ℝ) :
    ∑ n, f n = ∑ j : Fin 3, ∑ b : Fin bz, f (sliceRow j b) := by
  rcases Nat.eq_zero_or_pos bz with rfl | hbz
  · simp
  · rw [← Fintype.sum_prod_type']
    symm
    apply Fintype.sum_bijective (fun x : Fin 3 × Fin bz => sliceRow x.1 x.2)
    · constructor
      · rintro ⟨j1, b1⟩ ⟨j2, b2⟩ hEq
        have h1 := congrArg groupOf hEq
        have h2 := congrArg memberOf hEq
        rw [groupOf_sliceRow, groupOf_sliceRow] at h1
        rw [memberOf_sliceRow, memberOf_sliceRow] at h2
        exact Prod.ext h1 h2
      · intro n
        exact ⟨(groupOf n, memberOf n), sliceRow_group_member n⟩
    · intro x
      rfl

/-! ## The forward computation (src/cyclemae.py lines 331-386)

Value-level embedding over exact reals.  The opaque external
collaborators (timm `PatchEmbed`, the Transformer `Block` stacks together
with the final `LayerNorm`, the learned `nn.Linear` projections and
parameter tensors) are fields of `EncoderOps` / `DecoderOps`; everything
the claims are about — masking, gathering, slicing, loss assembly — is
computed concretely.  `torch.rand` draws are explicit `ℚ` arguments: the
first encode uses `noise0`, the cycle re-encode of source domain `d` uses
the fresh, independent `noiseCyc d` (line 361; `.detach()` is the identity
on values). -/

noncomputable section

/-- Opaque parts of `Encoder` (src/cyclemae.py lines 76-111): `patch_embed`,
the fixed positional table (`num_patches + 1` slots, slot 0 for the cls
token), the learned cls token, and the Transformer block stack composed
with the final norm (shape-preserving for any sequence length). -/
structure EncoderOps (bz h p Dv : ℕ) where
  patchEmbed : (Fin (3*bz) → Fin 3 → Fin (h*p) → Fin (h*p) → ℝ) →
    Fin (3*bz) → Fin (h*h) → Fin Dv → ℝ
  posEmbed : Fin (h*h+1) → Fin Dv → ℝ
  clsTok : Fin Dv → ℝ
  blocksNorm : {K : ℕ} → (Fin (3*bz) → Fin K → Fin Dv → ℝ) →
    Fin (3*bz) → Fin K → Fin Dv → ℝ

/-- `Encoder.forward` (lines 91-111): patch-embed, add positional embedding
without the cls slot, `random_masking`, prepend the cls token (offset by
its positional slot), run the blocks and final norm.  Returns
`(latent, mask, ids_restore)`. -/
def encoderForward {bz h p Dv : ℕ} (eo : EncoderOps bz h p Dv) (r : ℚ)
    (x : Fin (3*bz) → Fin 3 → Fin (h*p) → Fin (h*p) → ℝ)
    (noise : Fin (3*bz) → Fin (h*h) → ℚ) :
    (Fin (3*bz) → Fin (keptLen (h*h) r + 1) → Fin Dv → ℝ) ×
    (Fin (3*bz) → Fin (h*h) → ℝ) × (Fin (3*bz) → Fin (h*h) → Fin (h*h)) :=
  let emb := eo.patchEmbed x
  let embPos : Fin (3*bz) → Fin (h*h) → Fin Dv → ℝ :=
    fun n l d => emb n l d + eo.posEmbed l.succ d
  let xm : Fin (3*bz) → Fin (keptLen (h*h) r) → Fin Dv → ℝ :=
    fun n v => xMasked (fun n' l d => embPos n' l d) noise r n v
  let seq : Fin (3*bz) → Fin (keptLen (h*h) r + 1) → Fin Dv → ℝ :=
    fun n t => Fin.cases (fun d => eo.clsTok d + eo.posEmbed 0 d) (fun v => xm n v) t
  (eo.blocksNorm seq, fun n l => binMask ℝ noise r n l, fun n l => idsRestore noise n l)

/-- Opaque parts of one `Decoder` (src/cyclemae.py lines 7-26): the
`decoder_embed` linear, the learned `mask_token`, the fixed decoder
positional table, the first block (whose output is the mid feature), the
remaining blocks composed with `decoder_norm`, and the `decoder_pred`
projection. -/
structure DecoderOps (bz h p Dv Dd : ℕ) where
  dEmbed : (Fin Dv → ℝ) → Fin Dd → ℝ
  maskTok : Fin Dd → ℝ
  dPos : Fin (h*h+1) → Fin Dd → ℝ
  block0 : (Fin (3*bz) → Fin (h*h+1) → Fin Dd → ℝ) →
    Fin (3*bz) → Fin (h*h+1) → Fin Dd → ℝ
  blocksTailNorm : (Fin (3*bz) → Fin (h*h+1) → Fin Dd → ℝ) →
    Fin (3*bz) → Fin (h*h+1) → Fin Dd → ℝ
  dPred : (Fin Dd → ℝ) → Fin (p*p*3) → ℝ

/-- `Decoder.forward` (lines 47-73): embed, re-insert placeholder tokens and
unshuffle through `ids_restore` (the `decoderUnshuffle` step), re-prepend
the cls token, add the decoder positional embedding, run `decoder_blocks[0]`
(capturing its output as the mid feature), then the remaining blocks, the
norm and the prediction head, and drop the cls row.
Returns `(prediction, mid_feature)`. -/
def decoderForward {bz h p Dv Dd : ℕ} (ops : DecoderOps bz h p Dv Dd) {K : ℕ}
    (latent : Fin (3*bz) → Fin (K+1) → Fin Dv → ℝ)
    (rest : Fin (3*bz) → Fin (h*h) → Fin (h*h)) :
    (Fin (3*bz) → Fin (h*h) → Fin (p*p*3) → ℝ) ×
    (Fin (3*bz) → Fin (h*h+1) → Fin Dd → ℝ) :=
  let x : Fin (3*bz) → Fin (K+1) → Fin Dd → ℝ := fun n t => ops.dEmbed (latent n t)
  let xr := decoderUnshuffle x rest (fun e => ops.maskTok e)
  let withCls : Fin (3*bz) → Fin (h*h+1) → Fin Dd → ℝ :=
    fun n t => Fin.cases (x n 0) (fun l => xr n l) t
  let withPos : Fin (3*bz) → Fin (h*h+1) → Fin Dd → ℝ :=
    fun n t e => withCls n t e + ops.dPos t e
  let xMid := ops.block0 withPos
  let xOut := ops.blocksTailNorm xMid
  (fun n l k => ops.dPred (xOut n l.succ) k, xMid)

/-- `CycleMAE.forward_loss` (lines 291-305): patchify the target, optionally
normalize each patch by its mean and (unbiased) variance with epsilon 1e-6,
and return the per-patch mean of squared errors `[N, L]`.  The `mask`
argument is accepted but unused — the masked combination at line 306 is
commented out in the source; callers combine with the mask themselves. -/
def forward_loss {m h p : ℕ} (normPix : Bool)
    (imgs : Fin m → Fin 3 → Fin (h*p) → Fin (h*p) → ℝ)
    (pred : Fin m → Fin (h*h) → Fin (p*p*3) → ℝ)
    (mask : Fin m → Fin (h*h) → ℝ) :
    Fin m → Fin (h*h) → ℝ :=
  let target0 := patchify imgs
  let target : Fin m → Fin (h*h) → Fin (p*p*3) → ℝ :=
    if normPix then
      fun n l k =>
        let mean := (∑ k', target0 n l k') / ((p*p*3 : ℕ) : ℝ)
        let var := (∑ k', (target0 n l k' - mean)^2) / ((p*p*3 - 1 : ℕ) : ℝ)
        (target0 n l k - mean) / Real.sqrt (var + 1/1000000)
    else target0
  fun n l => (∑ k, (pred n l k - target n l k)^2) / ((p*p*3 : ℕ) : ℝ)

/-- The fixed contrastive temperature `tao = 100000` (line 373). -/
def tao : ℝ := 100000

/-- `torch.nn.functional.log_softmax` over the 3 candidates:
`log_softmax(v)[i] = v[i] - log (Σ_j exp v[j])`. -/
def logSoftmax (v : Fin 3 → ℝ) (i : Fin 3) : ℝ :=
  v i - Real.log (∑ j, Real.exp (v j))

/-- A CycleMAE model instance: the shared encoder, the three domain
decoders actually reached by `forward` (`decoder_0..decoder_2`, lines
337-338 and 363-364), and the `norm_pix_loss` flag fixed at construction. -/
structure Model (bz h p Dv Dd : ℕ) where
  eo : EncoderOps bz h p Dv
  dec : Fin 3 → DecoderOps bz h p Dv Dd
  normPix : Bool

section ForwardDefs

variable {bz h p Dv Dd : ℕ}

/-- Line 333: `latent, mask, ids_restore = self.encoder(x, mask_ratio)`. -/
def encOut (M : Model bz h p Dv Dd) (r : ℚ)
    (x : Fin (3*bz) → Fin 3 → Fin (h*p) → Fin (h*p) → ℝ)
    (noise0 : Fin (3*bz) → Fin (h*h) → ℚ) :=
  encoderForward M.eo r x noise0

/-- Line 338: `pred, _ = self.multi_domain_decoders[f'decoder_{i}'](latent, ids_restore)`. -/
def predD (M : Model bz h p Dv Dd) (r : ℚ)
    (x : Fin (3*bz) → Fin 3 → Fin (h*p) → Fin (h*p) → ℝ)
    (noise0 : Fin (3*bz) → Fin (h*h) → ℚ) (i : Fin 3) :
    Fin (3*bz) → Fin (h*h) → Fin (p*p*3) → ℝ :=
  (decoderForward (M.dec i) (encOut M r x noise0).1 (encOut M r x noise0).2.2).1

/-- Line 340: `loss_recons = self.forward_loss(original_x, pred, mask)`. -/
def lossReconsPerPatch (M : Model bz h p Dv Dd) (r : ℚ)
    (x origX : Fin (3*bz) → Fin 3 → Fin (h*p) → Fin (h*p) → ℝ)
    (noise0 : Fin (3*bz) → Fin (h*h) → ℚ) (i : Fin 3) :
    Fin (3*bz) → Fin (h*h) → ℝ :=
  forward_loss M.normPix origX (predD M r x noise0 i) (encOut M r x noise0).2.1

/-- Lines 346-351: keep slice `[i*bz:(i+1)*bz]` of each decoder's per-patch
loss, concatenate, multiply by the binary mask, and divide by the mask sum. -/
def lossReconsVal (M : Model bz h p Dv Dd) (r : ℚ)
    (x origX : Fin (3*bz) → Fin 3 → Fin (h*p) → Fin (h*p) → ℝ)
    (noise0 : Fin (3*bz) → Fin (h*h) → ℚ) : ℝ :=
  (∑ n, ∑ l, cat3 (fun i => rowSlice (lossReconsPerPatch M r x origX noise0 i) i) n l *
      (encOut M r x noise0).2.1 n l) /
    (∑ n, ∑ l, (encOut M r x noise0).2.1 n l)

/-- Line 361: the cycle pass re-encodes the unpatchified full prediction of
decoder `i` (gradient-detached; identity on values) with the fresh draw
`noiseCyc i`. -/
def cycEnc (M : Model bz h p Dv Dd) (r : ℚ)
    (x : Fin (3*bz) → Fin 3 → Fin (h*p) → Fin (h*p) → ℝ)
    (noise0 : Fin (3*bz) → Fin (h*h) → ℚ)
    (noiseCyc : Fin 3 → Fin (3*bz) → Fin (h*h) → ℚ) (i : Fin 3) :=
  encoderForward M.eo r (unpatchify (predD M r x noise0 i)) (noiseCyc i)

/-- Line 364: `pred, decoder_mid_feature = self.multi_domain_decoders[f'decoder_{j}'](latent, ids_restore)`
inside the cycle pass of source domain `i`. -/
def cycDec (M : Model bz h p Dv Dd) (r : ℚ)
    (x : Fin (3*bz) → Fin 3 → Fin (h*p) → Fin (h*p) → ℝ)
    (noise0 : Fin (3*bz) → Fin (h*h) → ℚ)
    (noiseCyc : Fin 3 → Fin (3*bz) → Fin (h*h) → ℚ) (i j : Fin 3) :=
  decoderForward (M.dec j) (cycEnc M r x noise0 noiseCyc i).1
    (cycEnc M r x noise0 noiseCyc i).2.2

/-- Lines 365-366: `loss_cycle_tmp = self.forward_loss(original_x[j*bz:(j+1)*bz], pred[j*bz:(j+1)*bz], mask[j*bz:(j+1)*bz])`. -/
def cycLossTmp (M : Model bz h p Dv Dd) (r : ℚ)
    (x origX : Fin (3*bz) → Fin 3 → Fin (h*p) → Fin (h*p) → ℝ)
    (noise0 : Fin (3*bz) → Fin (h*h) → ℚ)
    (noiseCyc : Fin 3 → Fin (3*bz) → Fin (h*h) → ℚ) (i j : Fin 3) :
    Fin bz → Fin (h*h) → ℝ :=
  forward_loss M.normPix (rowSlice origX j)
    (rowSlice (cycDec M r x noise0 noiseCyc i j).1 j)
    (rowSlice (cycEnc M r x noise0 noiseCyc i).2.1 j)

/-- Lines 355-370: `loss_cycle += (torch.cat(loss_cycle_list) * mask).sum() / mask.sum()`,
accumulated over the three source domains. -/
def lossCycleVal (M : Model bz h p Dv Dd) (r : ℚ)
    (x origX : Fin (3*bz) → Fin 3 → Fin (h*p) → Fin (h*p) → ℝ)
    (noise0 : Fin (3*bz) → Fin (h*h) → ℚ)
    (noiseCyc : Fin 3 → Fin (3*bz) → Fin (h*h) → ℚ) : ℝ :=
  ∑ i : Fin 3,
    (∑ n, ∑ l, cat3 (cycLossTmp M r x origX noise0 noiseCyc i) n l *
        (cycEnc M r x noise0 noiseCyc i).2.1 n l) /
      (∑ n, ∑ l, (cycEnc M r x noise0 noiseCyc i).2.1 n l)

/-- `decoder_mid_feature_list[j][i]`: the mid feature of decoder `j` applied
to source domain `i`'s re-encoded latent (line 368). -/
def midFeat (M : Model bz h p Dv Dd) (r : ℚ)
    (x : Fin (3*bz) → Fin 3 → Fin (h*p) → Fin (h*p) → ℝ)
    (noise0 : Fin (3*bz) → Fin (h*h) → ℚ)
    (noiseCyc : Fin 3 → Fin (3*bz) → Fin (h*h) → ℚ) (i j : Fin 3) :
    Fin (3*bz) → Fin (h*h+1) → Fin Dd → ℝ :=
  (cycDec M r x noise0 noiseCyc i j).2

/-- Lines 376-380 for outer index `i`: stack `decoder_mid_feature_list[i]`
to `[3, N, L+1, Dd]`, reshape to `[3, 3, bz, L+1, Dd]` (splitting row
`n = g*bz + b`), permute to `[g, a, b, L+1, Dd]` and flatten `(a, b)`:
row `g` of the resulting bank is `(a, b, s, e) ↦ midFeat a i (g*bz+b) s e`. -/
def bankRow (M : Model bz h p Dv Dd) (r : ℚ)
    (x : Fin (3*bz) → Fin 3 → Fin (h*p) → Fin (h*p) → ℝ)
    (noise0 : Fin (3*bz) → Fin (h*h) → ℚ)
    (noiseCyc : Fin 3 → Fin (3*bz) → Fin (h*h) → ℚ) (i g : Fin 3)
    (a : Fin 3) (b : Fin bz) (s : Fin (h*h+1)) (e : Fin Dd) : ℝ :=
  midFeat M r x noise0 noiseCyc a i (sliceRow g b) s e

/-- Line 383: `(decoder_mid_feature[i] * decoder_mid_feature).reshape(3, -1).sum(1) / tao` —
the dot product of bank row `i` with bank row `g`, scaled by `1/tao`. -/
def simLogits (M : Model bz h p Dv Dd) (r : ℚ)
    (x : Fin (3*bz) → Fin 3 → Fin (h*p) → Fin (h*p) → ℝ)
    (noise0 : Fin (3*bz) → Fin (h*h) → ℚ)
    (noiseCyc : Fin 3 → Fin (3*bz) → Fin (h*h) → ℚ) (i g : Fin 3) : ℝ :=
  (∑ a, ∑ b, ∑ s, ∑ e, bankRow M r x noise0 noiseCyc i i a b s e *
    bankRow M r x noise0 noiseCyc i g a b s e) / tao

/-- Lines 372-383: `loss_contrastive += (-1) * log_softmax(... / tao, dim=0)[i]`. -/
def lossContrastiveVal (M : Model bz h p Dv Dd) (r : ℚ)
    (x : Fin (3*bz) → Fin 3 → Fin (h*p) → Fin (h*p) → ℝ)
    (noise0 : Fin (3*bz) → Fin (h*h) → ℚ)
    (noiseCyc : Fin 3 → Fin (3*bz) → Fin (h*h) → ℚ) : ℝ :=
  ∑ i : Fin 3, -(logSoftmax (fun g => simLogits M r x noise0 noiseCyc i g) i)

/-- `CycleMAE.forward` (lines 331-386), translated monolithically in source
order: first encode, three primary decodes, the diagonal-sliced masked
reconstruction loss, three cycle passes (each re-encoding the detached
unpatchified prediction with a fresh draw and decoding with all three
decoders), the contrastive loss over the collected mid features, and the
final combination `loss_recons + 2 * loss_cycle + 2 * loss_contrastive`. -/
def forward (M : Model bz h p Dv Dd) (r : ℚ)
    (x origX : Fin (3*bz) → Fin 3 → Fin (h*p) → Fin (h*p) → ℝ)
    (noise0 : Fin (3*bz) → Fin (h*h) → ℚ)
    (noiseCyc : Fin 3 → Fin (3*bz) → Fin (h*h) → ℚ) : ℝ :=
  -- line 333
  let enc1 := encoderForward M.eo r x noise0
  -- lines 337-342
  let pred : Fin 3 → Fin (3*bz) → Fin (h*h) → Fin (p*p*3) → ℝ :=
    fun i => (decoderForward (M.dec i) enc1.1 enc1.2.2).1
  let lossR : Fin 3 → Fin (3*bz) → Fin (h*h) → ℝ :=
    fun i => forward_loss M.normPix origX (pred i) enc1.2.1
  -- lines 346-351
  let lossRecons := (∑ n, ∑ l, cat3 (fun i => rowSlice (lossR i) i) n l * enc1.2.1 n l) /
    (∑ n, ∑ l, enc1.2.1 n l)
  -- lines 355-370
  let cycData : Fin 3 →
      ℝ × (Fin 3 → Fin (3*bz) → Fin (h*h+1) → Fin Dd → ℝ) := fun i =>
    let enc2 := encoderForward M.eo r (unpatchify (pred i)) (noiseCyc i)
    let dec2 := fun j => decoderForward (M.dec j) enc2.1 enc2.2.2
    let tmp : Fin 3 → Fin bz → Fin (h*h) → ℝ := fun j =>
      forward_loss M.normPix (rowSlice origX j) (rowSlice (dec2 j).1 j)
        (rowSlice enc2.2.1 j)
    ((∑ n, ∑ l, cat3 tmp n l * enc2.2.1 n l) / (∑ n, ∑ l, enc2.2.1 n l),
      fun j => (dec2 j).2)
  let lossCyc := ∑ i : Fin 3, (cycData i).1
  -- lines 372-383
  let lossCon := ∑ i : Fin 3,
    -(logSoftmax (fun g =>
        (∑ a, ∑ b, ∑ s, ∑ e, (cycData a).2 i (sliceRow i b) s e *
          (cycData a).2 i (sliceRow g b) s e) / tao) i)
  -- lines 385-386
  lossRecons + 2 * lossCyc + 2 * lossCon

end ForwardDefs

section ForwardTheorems

variable {bz h p Dv Dd : ℕ}

/-- Claim-side reading of §4.5's `ReconstructionLoss` contract: the
per-patch mean squared error of a prediction against the patchified
original image (pixel-normalization disabled). -/
def perPatchMSE {m h p : ℕ} (pred : Fin m → Fin (h*h) → Fin (p*p*3) → ℝ)
    (imgs : Fin m → Fin 3 → Fin (h*p) → Fin (h*p) → ℝ)
    (n : Fin m) (l : Fin (h*h)) : ℝ :=
  (∑ k, (pred n l k - patchify imgs n l k)^2) / ((p*p*3 : ℕ) : ℝ)

theorem forward_loss_false {m h p : ℕ}
    (imgs : Fin m → Fin 3 → Fin (h*p) → Fin (h*p) → ℝ)
    (pred : Fin m → Fin (h*h) → Fin (p*p*3) → ℝ)
    (mask : Fin m → Fin (h*h) → ℝ) (n : Fin m) (l : Fin (h*h)) :
    forward_loss false imgs pred mask n l = perPatchMSE pred imgs n l := by
  unfold forward_loss perPatchMSE
  simp

/-- `forward_loss` is row-local, so computing it on the `j`-th domain-group
slices agrees with slicing its full-batch result. -/
theorem forward_loss_rowSlice {h p : ℕ} {bz : ℕ} (nP : Bool)
    (imgs : Fin (3*bz) → Fin 3 → Fin (h*p) → Fin (h*p) → ℝ)
    (pred : Fin (3*bz) → Fin (h*h) → Fin (p*p*3) → ℝ)
    (mask : Fin (3*bz) → Fin (h*h) → ℝ) (j : Fin 3) (b : Fin bz) (l : Fin (h*h)) :
    forward_loss nP (rowSlice imgs j) (rowSlice pred j) (rowSlice mask j) b l =
      forward_loss nP imgs pred mask (sliceRow j b) l := by
  cases nP <;> rfl

/-- `forward` equals the sum of its three separately-defined loss
components with weights 1, 2, 2 (helper shared by several theorems). -/
theorem forward_split (M : Model bz h p Dv Dd) (r : ℚ)
    (x origX : Fin (3*bz) → Fin 3 → Fin (h*p) → Fin (h*p) → ℝ)
    (noise0 : Fin (3*bz) → Fin (h*h) → ℚ)
    (noiseCyc : Fin 3 → Fin (3*bz) → Fin (h*h) → ℚ) :
    forward M r x origX noise0 noiseCyc =
      lossReconsVal M r x origX noise0 + 2 * lossCycleVal M r x origX noise0 noiseCyc +
        2 * lossContrastiveVal M r x noise0 noiseCyc := by
  rfl

/-- C9: the scalar returned by `forward` equals
`loss_recons + 2 * loss_cycle + 2 * loss_contrastive`; the multipliers
1, 2, 2 are fixed constants — `forward(x, original_x, mask_ratio)` exposes
no parameter that could change them at call time. -/
theorem c9_loss_composition (M : Model bz h p Dv Dd) (r : ℚ)
    (x origX : Fin (3*bz) → Fin 3 → Fin (h*p) → Fin (h*p) → ℝ)
    (noise0 : Fin (3*bz) → Fin (h*h) → ℚ)
    (noiseCyc : Fin 3 → Fin (3*bz) → Fin (h*h) → ℚ) :
    forward M r x origX noise0 noiseCyc =
      lossReconsVal M r x origX noise0 + 2 * lossCycleVal M r x origX noise0 noiseCyc +
        2 * lossContrastiveVal M r x noise0 noiseCyc :=
  forward_split M r x origX noise0 noiseCyc

/-- C4: with pixel-normalization disabled (the construction default), the
reconstruction loss is the mask-weighted sum of the per-patch mean squared
errors of the domain-diagonal slices — rows `[j*bz:(j+1)*bz)` come from
decoder `j` (aligned with original row order) — divided by the mask sum. -/
theorem c4_domain_diagonal_recons (eo : EncoderOps bz h p Dv)
    (dec : Fin 3 → DecoderOps bz h p Dv Dd) (r : ℚ)
    (x origX : Fin (3*bz) → Fin 3 → Fin (h*p) → Fin (h*p) → ℝ)
    (noise0 : Fin (3*bz) → Fin (h*h) → ℚ) :
    lossReconsVal ⟨eo, dec, false⟩ r x origX noise0 =
      (∑ j : Fin 3, ∑ b : Fin bz, ∑ l,
        perPatchMSE (predD ⟨eo, dec, false⟩ r x noise0 j) origX (sliceRow j b) l *
          (encOut ⟨eo, dec, false⟩ r x noise0).2.1 (sliceRow j b) l) /
      (∑ n, ∑ l, (encOut ⟨eo, dec, false⟩ r x noise0).2.1 n l) := by
  unfold lossReconsVal
  have hnum : (∑ n, ∑ l,
      cat3 (fun i => rowSlice (lossReconsPerPatch ⟨eo, dec, false⟩ r x origX noise0 i) i) n l *
        (encOut ⟨eo, dec, false⟩ r x noise0).2.1 n l) =
      ∑ j : Fin 3, ∑ b : Fin bz, ∑ l,
        perPatchMSE (predD ⟨eo, dec, false⟩ r x noise0 j) origX (sliceRow j b) l *
          (encOut ⟨eo, dec, false⟩ r x noise0).2.1 (sliceRow j b) l := by
    rw [sum_groups]
    refine Finset.sum_congr rfl fun j _ => Finset.sum_congr rfl fun b _ => ?_
    refine Finset.sum_congr rfl fun l _ => ?_
    rw [cat3_sliceRow]
    unfold rowSlice lossReconsPerPatch
    rw [forward_loss_false]
  rw [hnum]

/-- C3: the cycle loss re-encodes the unpatchified full prediction of each
source domain `d` with a fresh masking draw, decodes with every decoder
`j`, scores only the per-patch squared errors of rows `[j*bz:(j+1)*bz)` of
the `(d, j)` prediction against the same rows of the original images,
weights them by the fresh mask's corresponding rows, and accumulates the
per-`d` masked contributions into `loss_cycle` by summation across `d`
(not averaging); pixel-normalization disabled as at construction. -/
theorem c3_cycle_loss_assembly (eo : EncoderOps bz h p Dv)
    (dec : Fin 3 → DecoderOps bz h p Dv Dd) (r : ℚ)
    (x origX : Fin (3*bz) → Fin 3 → Fin (h*p) → Fin (h*p) → ℝ)
    (noise0 : Fin (3*bz) → Fin (h*h) → ℚ)
    (noiseCyc : Fin 3 → Fin (3*bz) → Fin (h*h) → ℚ) :
    (∀ d : Fin 3, cycEnc ⟨eo, dec, false⟩ r x noise0 noiseCyc d =
      encoderForward eo r (unpatchify (predD ⟨eo, dec, false⟩ r x noise0 d)) (noiseCyc d)) ∧
    lossCycleVal ⟨eo, dec, false⟩ r x origX noise0 noiseCyc =
      ∑ d : Fin 3,
        (∑ j : Fin 3, ∑ b : Fin bz, ∑ l,
          perPatchMSE ((cycDec ⟨eo, dec, false⟩ r x noise0 noiseCyc d j).1) origX
              (sliceRow j b) l *
            (cycEnc ⟨eo, dec, false⟩ r x noise0 noiseCyc d).2.1 (sliceRow j b) l) /
        (∑ n, ∑ l, (cycEnc ⟨eo, dec, false⟩ r x noise0 noiseCyc d).2.1 n l) := by
  refine ⟨fun d => rfl, ?_⟩
  unfold lossCycleVal
  refine Finset.sum_congr rfl fun d _ => ?_
  have hnum : (∑ n, ∑ l, cat3 (cycLossTmp ⟨eo, dec, false⟩ r x origX noise0 noiseCyc d) n l *
      (cycEnc ⟨eo, dec, false⟩ r x noise0 noiseCyc d).2.1 n l) =
      ∑ j : Fin 3, ∑ b : Fin bz, ∑ l,
        perPatchMSE ((cycDec ⟨eo, dec, false⟩ r x noise0 noiseCyc d j).1) origX
            (sliceRow j b) l *
          (cycEnc ⟨eo, dec, false⟩ r x noise0 noiseCyc d).2.1 (sliceRow j b) l := by
    rw [sum_groups]
    refine Finset.sum_congr rfl fun j _ => Finset.sum_congr rfl fun b _ => ?_
    refine Finset.sum_congr rfl fun l _ => ?_
    rw [cat3_sliceRow]
    unfold cycLossTmp
    rw [forward_loss_rowSlice, forward_loss_false]
  rw [hnum]

/-- C8: the contrastive loss is the sum over `d` of the negative
log-softmax probability assigned to index `d`, with logits the dot-product
similarities of flattened feature-bank row `d` against every bank row,
each scaled by `1/tao`, `tao = 100000` fixed, softmax across the 3
candidates. -/
theorem c8_contrastive_formula (M : Model bz h p Dv Dd) (r : ℚ)
    (x : Fin (3*bz) → Fin 3 → Fin (h*p) → Fin (h*p) → ℝ)
    (noise0 : Fin (3*bz) → Fin (h*h) → ℚ)
    (noiseCyc : Fin 3 → Fin (3*bz) → Fin (h*h) → ℚ) :
    lossContrastiveVal M r x noise0 noiseCyc =
      (∑ d : Fin 3, -Real.log (Real.exp (simLogits M r x noise0 noiseCyc d d) /
        ∑ g, Real.exp (simLogits M r x noise0 noiseCyc d g))) ∧
    tao = 100000 ∧
    (∀ d g, simLogits M r x noise0 noiseCyc d g =
      (∑ a, ∑ b, ∑ s, ∑ e, bankRow M r x noise0 noiseCyc d d a b s e *
        bankRow M r x noise0 noiseCyc d g a b s e) / 100000) := by
  refine ⟨?_, rfl, fun d g => rfl⟩
  unfold lossContrastiveVal logSoftmax
  refine Finset.sum_congr rfl fun d _ => ?_
  have hS : (0 : ℝ) < ∑ g, Real.exp (simLogits M r x noise0 noiseCyc d g) :=
    Finset.sum_pos (fun g _ => Real.exp_pos _) Finset.univ_nonempty
  rw [Real.log_div (Real.exp_pos _).ne' hS.ne', Real.log_exp]

theorem binMask_at_zero (β : Type) [Zero β] [One β] {N L : ℕ}
    (noise : Fin N → Fin L → ℚ) (n : Fin N) (l : Fin L) :
    binMask β noise 0 n l = 0 := by
  unfold binMask
  rw [if_pos]
  rw [lenKeep_zero L]
  exact (idsRestore noise n l).isLt

/-- C10: calling `forward` with `mask_ratio = 0` makes every binary mask
all zeros, so both loss normalizations divide by a zero mask sum: the
denominator of the reconstruction term and of every cycle term is 0, with
no guard at the public `forward` interface.  (Over the exact reals of this
embedding `x / 0 = 0`, so the reconstruction and cycle information
vanishes and `forward` degenerates to `2 * loss_contrastive`; in floating
point the same division produces NaN, so `mask_ratio > 0` is required for
a well-defined finite scalar.) -/
theorem c10_zero_mask_ratio (M : Model bz h p Dv Dd) (r : ℚ)
    (x origX : Fin (3*bz) → Fin 3 → Fin (h*p) → Fin (h*p) → ℝ)
    (noise0 : Fin (3*bz) → Fin (h*h) → ℚ)
    (noiseCyc : Fin 3 → Fin (3*bz) → Fin (h*h) → ℚ)
    (hr : r = 0) :
    (∀ n l, (encOut M r x noise0).2.1 n l = 0) ∧
    (∑ n, ∑ l, (encOut M r x noise0).2.1 n l) = 0 ∧
    (∀ d : Fin 3, (∑ n, ∑ l, (cycEnc M r x noise0 noiseCyc d).2.1 n l) = 0) ∧
    forward M r x origX noise0 noiseCyc =
      2 * lossContrastiveVal M r x noise0 noiseCyc := by
  subst hr
  have hmask : ∀ (noise : Fin (3*bz) → Fin (h*h) → ℚ) (n : Fin (3*bz)) (l : Fin (h*h)),
      binMask ℝ noise 0 n l = 0 := fun noise n l => binMask_at_zero ℝ noise n l
  have henc : ∀ n l, (encOut M 0 x noise0).2.1 n l = 0 := fun n l => hmask noise0 n l
  have hencSum : (∑ n, ∑ l, (encOut M 0 x noise0).2.1 n l) = 0 := by
    simp only [henc, Finset.sum_const_zero]
  have hcyc : ∀ d : Fin 3, ∀ n l, (cycEnc M 0 x noise0 noiseCyc d).2.1 n l = 0 :=
    fun d n l => hmask (noiseCyc d) n l
  have hcycSum : ∀ d : Fin 3, (∑ n, ∑ l, (cycEnc M 0 x noise0 noiseCyc d).2.1 n l) = 0 := by
    intro d
    simp only [hcyc, Finset.sum_const_zero]
  refine ⟨henc, hencSum, hcycSum, ?_⟩
  rw [forward_split]
  have hR : lossReconsVal M 0 x origX noise0 = 0 := by
    unfold lossReconsVal
    rw [hencSum, div_zero]
  have hC : lossCycleVal M 0 x origX noise0 noiseCyc = 0 := by
    unfold lossCycleVal
    refine Finset.sum_eq_zero fun d _ => ?_
    rw [hcycSum d, div_zero]
  rw [hR, hC]
  ring

end ForwardTheorems

/-! Concrete trivial model instance used by witnesses: all opaque
collaborators return zeros, blocks are the identity. -/

def trivEncoderOps : EncoderOps 1 1 1 1 :=
  ⟨fun _ _ _ _ => 0, fun _ _ => 0, fun _ => 0, fun s => s⟩

def trivDecoderOps : DecoderOps 1 1 1 1 1 :=
  ⟨fun _ _ => 0, fun _ => 0, fun _ _ => 0, fun s => s, fun s => s, fun _ _ => 0⟩

def trivModel : Model 1 1 1 1 1 := ⟨trivEncoderOps, fun _ => trivDecoderOps, false⟩

def zeroImg : Fin (3*1) → Fin 3 → Fin (1*1) → Fin (1*1) → ℝ := fun _ _ _ _ => 0

def zeroNoise : Fin (3*1) → Fin (1*1) → ℚ := fun _ _ => 0

theorem c10_zero_mask_ratio_witness :
    (∑ n, ∑ l, (encOut trivModel 0 zeroImg zeroNoise).2.1 n l) = 0 ∧
    forward trivModel 0 zeroImg zeroImg zeroNoise (fun _ => zeroNoise) =
      2 * lossContrastiveVal trivModel 0 zeroImg zeroNoise (fun _ => zeroNoise) :=
  ⟨(c10_zero_mask_ratio trivModel 0 zeroImg zeroImg zeroNoise (fun _ => zeroNoise) rfl).2.1,
   (c10_zero_mask_ratio trivModel 0 zeroImg zeroImg zeroNoise (fun _ => zeroNoise) rfl).2.2.2⟩

end

/-! ## Shape-level model of forward (error behavior)

The value-level model above requires a well-formed batch (`N = 3*bz`,
square images).  The shape model below follows `forward` through the
shape-relevant checkpoints, in source order, to settle what happens on
ill-formed inputs: the Python `assert` in `patchify` (line 269, first
reached from `forward_loss` at line 340), the decoder `ModuleDict` lookups
(`decoder_{i}` for `i in range(3)`, lines 338/364), the elementwise
products of the concatenated `[3*bz, L]` losses with the `[N, L]` mask
(lines 351 and 370, PyTorch broadcasting: per-dimension sizes must be
equal or one of them must be 1 — a 0-sized dim broadcasts against 1), the
`unpatchify` assert (line 284), and the contrastive
`reshape([3, 3, -1, L+1, Dd])` of the stacked `[3, N, L+1, Dd]` mid
features (line 378, valid iff the known dims divide the total).  The
encoder and decoders themselves are shape-preserving contracts. -/

/-- Lines 337/363/375: `for i in range(3)` — the decoder keys accessed by
`forward` are `decoder_0 .. decoder_2`, independent of `num_domains`. -/
def forwardDecodeKeys : List ℕ := List.range 3

/-- Line 346: `bz = int(loss_recons_list[0].shape[0] / 3)` — the slicing
group size is `N / 3`, with the divisor 3 fixed. -/
def forwardBz (N : ℕ) : ℕ := N / 3

inductive ShapeErr : Type
  | assertFail : ShapeErr
  | missingKey : ShapeErr
  | broadcastMismatch : ShapeErr
  | reshapeMismatch : ShapeErr
deriving DecidableEq

/-- The shape checkpoints of `forward(x[N,3,H,W], original_x, ...)` for a
model built with `numD` decoders, patch size `p`, decoder width `Dd`. -/
def forwardShape (numD N H W p Dd : ℕ) : Except ShapeErr Unit :=
  if _h1 : ∀ i ∈ forwardDecodeKeys, i < numD then
    if _h2 : H = W ∧ H % p = 0 then
      if _h3 : 3 * forwardBz N = N ∨ 3 * forwardBz N = 1 ∨ N = 1 then
        -- line 284: `h = int(L ** .5); assert h * w == L` — L must be a
        -- perfect square
        if _h4 : ∃ m ∈ Finset.range ((H/p) * (H/p) + 1), m * m = (H/p) * (H/p) then
          if _h5 : 3 * forwardBz N = N ∨ 3 * forwardBz N = 1 ∨ N = 1 then
            if _h6 : 3 * 3 * (((H/p) * (H/p) + 1) * Dd) ≠ 0 ∧
                (3 * N * (((H/p) * (H/p) + 1) * Dd)) %
                  (3 * 3 * (((H/p) * (H/p) + 1) * Dd)) = 0 then
              Except.ok ()
            else Except.error ShapeErr.reshapeMismatch
          else Except.error ShapeErr.broadcastMismatch
        else Except.error ShapeErr.assertFail
      else Except.error ShapeErr.broadcastMismatch
    else Except.error ShapeErr.assertFail
  else Except.error ShapeErr.missingKey

/-- C7 (amended): with the three decoder keys available (`numD ≥ 3`),
`forward` raises whenever the image is not square, the image size is not
divisible by the patch size, or `N` is not divisible by the hard-coded 3:
the asserts fire for the image conditions, and for `N % 3 ≠ 0` either the
mask broadcast at line 351 fails (every `N ≠ 1`) or, for `N = 1`, the
contrastive reshape at line 378 fails — the call never returns a value. -/
theorem c7_shape_errors (numD N H W p Dd : ℕ) (hp : 0 < p) (hDd : 0 < Dd)
    (hnum : 3 ≤ numD)
    (hbad : H ≠ W ∨ H % p ≠ 0 ∨ N % 3 ≠ 0) :
    ∃ e, forwardShape numD N H W p Dd = Except.error e := by
  unfold forwardShape
  have hkeys : ∀ i ∈ forwardDecodeKeys, i < numD := by
    intro i hi
    unfold forwardDecodeKeys at hi
    rw [List.mem_range] at hi
    omega
  rw [dif_pos hkeys]
  by_cases h2 : H = W ∧ H % p = 0
  · rw [dif_pos h2]
    have hN : N % 3 ≠ 0 := by
      rcases hbad with hb | hb | hb
      · exact absurd h2.1 hb
      · exact absurd h2.2 hb
      · exact hb
    by_cases hN1 : N = 1
    · subst hN1
      have h3 : 3 * forwardBz 1 = 1 ∨ 3 * forwardBz 1 = 1 ∨ (1:ℕ) = 1 :=
        Or.inr (Or.inr rfl)
      have h4 : ∃ m ∈ Finset.range ((H/p) * (H/p) + 1), m * m = (H/p) * (H/p) := by
        refine ⟨H/p, Finset.mem_range.mpr ?_, rfl⟩
        rcases Nat.eq_zero_or_pos (H/p) with h0 | h0
        · simp [h0]
        · exact Nat.lt_succ_of_le (Nat.le_mul_of_pos_left (H/p) h0)
      rw [dif_pos h3, dif_pos h4, dif_pos h3]
      have hK : 0 < ((H/p) * (H/p) + 1) * Dd := by positivity
      have h6 : ¬ (3 * 3 * (((H/p) * (H/p) + 1) * Dd) ≠ 0 ∧
          (3 * 1 * (((H/p) * (H/p) + 1) * Dd)) %
            (3 * 3 * (((H/p) * (H/p) + 1) * Dd)) = 0) := by
        rintro ⟨-, hmod⟩
        set K := ((H/p) * (H/p) + 1) * Dd with hKdef
        have hlt : 3 * 1 * K < 3 * 3 * K := by omega
        rw [Nat.mod_eq_of_lt hlt] at hmod
        omega
      rw [dif_neg h6]
      exact ⟨ShapeErr.reshapeMismatch, rfl⟩
    · have h3 : ¬ (3 * forwardBz N = N ∨ 3 * forwardBz N = 1 ∨ N = 1) := by
        unfold forwardBz
        have hdm := Nat.div_add_mod N 3
        have hm : N % 3 < 3 := Nat.mod_lt _ (by norm_num)
        omega
      rw [dif_neg h3]
      exact ⟨ShapeErr.broadcastMismatch, rfl⟩
  · rw [dif_neg h2]
    exact ⟨ShapeErr.assertFail, rfl⟩

theorem c7_shape_errors_witness :
    (0:ℕ) < 1 ∧ (3:ℕ) ≤ 3 ∧ 5 % 3 ≠ 0 ∧
    ∃ e, forwardShape 3 5 2 2 1 1 = Except.error e :=
  ⟨by decide, by decide, by decide,
   c7_shape_errors 3 5 2 2 1 1 (by decide) (by decide) (by decide)
     (Or.inr (Or.inr (by decide)))⟩

/-- C7 fails as stated for models with `num_domains ≠ 3`: with
`num_domains = 6` and `N = 9`, `N % num_domains = 3 ≠ 0`, yet every shape
checkpoint of `forward` passes (the hard-coded 3 divides 9), so no error
is raised. -/
theorem c7_counterexample :
    forwardShape 6 9 4 4 2 1 = Except.ok () ∧ 9 % 6 ≠ 0 := by
  constructor
  · rfl
  · decide

/-- C6 fails as stated: with `num_domains = 4`, `forward` still iterates
over decoder keys `0, 1, 2` (not `range 4`), and for `N = 12` it slices
with `bz = 12 / 3 = 4`, not `12 / 4 = 3`. -/
theorem c6_counterexample :
    forwardDecodeKeys ≠ List.range 4 ∧ forwardBz 12 ≠ 12 / 4 := by
  constructor
  · decide
  · decide

/-- C6 (amended): `forward`'s decode-loop iteration count and slicing
divisor are the fixed constant 3 (`for i in range(3)` and
`bz = int(N/3)`), independent of the constructed `num_domains`; they agree
with `num_domains` exactly when `num_domains = 3`. -/
theorem c6_fixed_three (numD N : ℕ) :
    forwardDecodeKeys = List.range 3 ∧ forwardBz N = N / 3 ∧
    (numD = 3 → forwardDecodeKeys = List.range numD ∧ forwardBz N = N / numD) := by
  refine ⟨rfl, rfl, ?_⟩
  rintro rfl
  exact ⟨rfl, rfl⟩

theorem c6_fixed_three_witness :
    forwardDecodeKeys = List.range 3 ∧ forwardBz 12 = 12 / 3 :=
  ⟨((c6_fixed_three 3 12).2.2 rfl).1, ((c6_fixed_three 3 12).2.2 rfl).2⟩

end CycleMAE
